import Mathlib

/-!
Shallow embedding of `packages/xo-collection/src/collection.js`: an observable,
indexed, in-memory keyed store ("Collection") with per-key coalescing of
mutations into a pending buffer and a nestable buffering/flush protocol.

JavaScript values are modelled by `JSVal`; the item mapping, the pending
buffer and the index registry are association lists; JS `throw` is modelled
by returning the unchanged state together with an error value (in the source
every throw happens before any state mutation of the operation).
-/

namespace XoColl

/-- The JavaScript values the collection manipulates.  Numbers are modelled
as rationals (`typeof` gives `number` for both integers and non-integers);
an object is modelled by the value of its `id` property — the only property
the collection ever reads (in `getKey`); an object without an `id` property
carries `.undefined`, exactly what the property read produces. -/
inductive JSVal where
  | undefined : JSVal
  | null : JSVal
  | bool : Bool → JSVal
  | num : ℚ → JSVal
  | str : String → JSVal
  | obj : JSVal → JSVal
deriving DecidableEq, Repr

/-- JavaScript truthiness for `JSVal` (NaN is not representable here). -/
def jsTruthy : JSVal → Bool
  | .undefined => false
  | .null => false
  | .bool b => b
  | .num q => q ≠ 0
  | .str s => s ≠ ""
  | .obj _ => true

/-- Reading the `id` property of a value: objects expose their `id` field,
primitives have no `id` property. -/
def idProp : JSVal → JSVal
  | .obj i => i
  | _ => .undefined

/-- `getKey (value) { return value && value.id }` — the default, overridable
key-extraction function. -/
def getKey (value : JSVal) : JSVal :=
  if jsTruthy value then idProp value else value

/-- `_isValidKey (key) { return typeof key === 'number' || typeof key === 'string' }` -/
def isValidKey : JSVal → Bool
  | .num _ => true
  | .str _ => true
  | _ => false

/-- The three pending-buffer actions (the strings `'add'`, `'remove'`,
`'update'` of the source). -/
inductive Action where
  | add : Action
  | remove : Action
  | update : Action
deriving DecidableEq, Repr

/-- The error classes thrown by `collection.js`. -/
inductive CollError where
  | bufferAlreadyFlushed : CollError
  | duplicateIndex : String → CollError
  | duplicateItem : JSVal → CollError
  | illegalTouch : JSVal → CollError
  | invalidKey : JSVal → CollError
  | noSuchIndex : String → CollError
  | noSuchItem : JSVal → CollError
deriving DecidableEq, Repr

/-- Events emitted through the `EventEmitter` base: the three batched change
events (each carrying a key → value mapping) and the payload-less `finish`
(settle) event. -/
inductive Event where
  | change : Action → List (JSVal × JSVal) → Event
  | finish : Event
deriving DecidableEq, Repr

/-- A direct call the store makes into an index object.  The source only ever
performs `index._attachCollection(this)` (in `createIndex`) and
`index._detachCollection(this)` (in `deleteIndex`); the `notify` shape exists
to state claims about per-mutation notifications. -/
inductive IndexCall where
  | attach : String → IndexCall
  | detach : String → IndexCall
  | notify : Action → JSVal → JSVal → IndexCall
deriving DecidableEq, Repr

/-- An index object as the collection sees it: an opaque `items` view. -/
structure Idx where
  items : JSVal
deriving DecidableEq, Repr

section AList

variable {κ : Type} {α : Type} [DecidableEq κ]

/-- Association-list lookup: the JS property read `l[k]` (the maps of the
source are plain objects with unique keys). -/
def aget : List (κ × α) → κ → Option α
  | [], _ => none
  | (k, v) :: t, key => if k = key then some v else aget t key

/-- Association-list write: the JS property write `l[k] = v`. -/
def aset : List (κ × α) → κ → α → List (κ × α)
  | [], key, v => [(key, v)]
  | (k, w) :: t, key, v => if k = key then (k, v) :: t else (k, w) :: aset t key v

/-- Association-list delete: the JS `delete l[k]`. -/
def adel : List (κ × α) → κ → List (κ × α)
  | [], _ => []
  | (k, w) :: t, key => if k = key then adel t key else (k, w) :: adel t key

end AList

/-- The collection state: item mapping, pending buffer, buffering depth,
index registry and exposed index item views.  `scheduled` records that
`_touch` has requested an automatic flush via `process.nextTick`. -/
structure Collection where
  items : List (JSVal × JSVal)
  size : Int
  buffer : List (JSVal × Action)
  buffering : Int
  scheduled : Bool
  indexes : List (String × Idx)
  indexedItems : List (String × JSVal)
deriving DecidableEq, Repr

/-- A freshly constructed collection. -/
def emptyCollection : Collection :=
  { items := [], size := 0, buffer := [], buffering := 0, scheduled := false,
    indexes := [], indexedItems := [] }

/-- `has (key) { return hasOwnProperty.call(this._items, key) }` -/
def hasKey (c : Collection) (key : JSVal) : Bool :=
  (aget c.items key).isSome

/-- `_resolveItem(keyOrObjectWithId, valueIfKey = undefined)`: returns the
resolved `[key, value]` pair or throws `InvalidKey`.  In the second source
branch the destructured `value` is `undefined`. -/
def resolveItem (keyOrObjectWithId : JSVal) (valueIfKey : JSVal := .undefined) :
    Except CollError (JSVal × JSVal) :=
  if valueIfKey ≠ .undefined then
    if isValidKey keyOrObjectWithId then .ok (keyOrObjectWithId, valueIfKey)
    else .error (.invalidKey keyOrObjectWithId)
  else if isValidKey keyOrObjectWithId then .ok (keyOrObjectWithId, .undefined)
  else
    let key := getKey keyOrObjectWithId
    if isValidKey key then .ok (key, keyOrObjectWithId)
    else .error (.invalidKey key)

/-- The buffer-merge part of `_touch(action, key)`: per-key coalescing of a
raw mutation into the pending buffer (`'add'` overwrites a truthy entry with
`'update'`, `'remove'` cancels a pending `'add'`, `'update'` only fills an
empty slot). -/
def touchBuffer (buf : List (JSVal × Action)) (action : Action) (key : JSVal) :
    List (JSVal × Action) :=
  match action with
  | .add =>
    match aget buf key with
    | some _ => aset buf key .update
    | none => aset buf key .add
  | .remove =>
    match aget buf key with
    | some .add => adel buf key
    | _ => aset buf key .remove
  | .update =>
    match aget buf key with
    | some _ => buf
    | none => aset buf key .update

/-- `_touch(action, key)`: when no buffering scope is open it opens one
(`bufferEvents()` increments `_buffering`) and schedules its flush with
`process.nextTick`; then it merges the mutation into the pending buffer. -/
def touchState (c : Collection) (action : Action) (key : JSVal) : Collection :=
  let c :=
    if c.buffering = 0 then
      { c with buffering := c.buffering + 1, scheduled := true }
    else c
  { c with buffer := touchBuffer c.buffer action key }

/-- Result of one collection operation: the state after it returns or throws,
the direct calls made into index objects, and the thrown error if any.  In
the source every throw precedes any state change of the operation, so on
error the state is the input state. -/
structure OpResult where
  state : Collection
  indexCalls : List IndexCall
  error : Option CollError
deriving DecidableEq, Repr

/-- `add(keyOrObjectWithId, valueIfKey)`.  The item write
`this._items[key] = value` is modelled as an own-entry insert — the
behaviour of the null-prototyped mapping the source documents for `_items`
(`this._items = {} // Object.create(null)`).  On the actual `{}`-prototyped
object the single key `'__proto__'` diverges (the inherited accessor
swallows the write); that behaviour is modelled by `itemsWrite` /
`addOpProto` below. -/
def addOp (c : Collection) (keyOrObjectWithId : JSVal)
    (valueIfKey : JSVal := .undefined) : OpResult :=
  match resolveItem keyOrObjectWithId valueIfKey with
  | .error e => ⟨c, [], some e⟩
  | .ok (key, value) =>
    if hasKey c key then ⟨c, [], some (.duplicateItem key)⟩
    else
      let c := { c with items := aset c.items key value, size := c.size + 1 }
      ⟨touchState c .add key, [], none⟩

/-- The body of `clear()`'s `forEach`: delete the entry, decrement the size,
record the removal. -/
def clearStep (c : Collection) (key : JSVal) : Collection :=
  touchState { c with items := adel c.items key, size := c.size - 1 } .remove key

/-- `clear()` iterates over the (unique) keys of `_items`, deleting each. -/
def clearLoop (c : Collection) : List (JSVal × JSVal) → Collection
  | [] => c
  | (key, _) :: t => clearLoop (clearStep c key) t

/-- `clear()` -/
def clearOp (c : Collection) : OpResult :=
  ⟨clearLoop c c.items, [], none⟩

/-- `remove(keyOrObjectWithId)` -/
def removeOp (c : Collection) (keyOrObjectWithId : JSVal) : OpResult :=
  match resolveItem keyOrObjectWithId with
  | .error e => ⟨c, [], some e⟩
  | .ok (key, _) =>
    if ¬ hasKey c key then ⟨c, [], some (.noSuchItem key)⟩
    else
      let c := { c with items := adel c.items key, size := c.size - 1 }
      ⟨touchState c .remove key, [], none⟩

/-- `set(keyOrObjectWithId, valueIfKey)`.  Like `addOp`, the item write is
modelled as an own-entry insert per the source's documented intent for
`_items`; the `{}`-prototype divergence at the key `'__proto__'` is
modelled by `setOpProto` below. -/
def setOp (c : Collection) (keyOrObjectWithId : JSVal)
    (valueIfKey : JSVal := .undefined) : OpResult :=
  match resolveItem keyOrObjectWithId valueIfKey with
  | .error e => ⟨c, [], some e⟩
  | .ok (key, value) =>
    let action : Action := if hasKey c key then .update else .add
    let c' := { c with items := aset c.items key value,
                       size := if action = .add then c.size + 1 else c.size }
    ⟨touchState c' action key, [], none⟩

/-- The JS property write `this._items[key] = value` on the source's actual
`{}`-prototyped `_items` (collection.js line 65), at the own-property
level: assigning to `'__proto__'` invokes the inherited accessor of
`Object.prototype` and creates no own entry (with an object value it would
instead replace the prototype — also creating no own entry); every other
key, including names of `Object.prototype` data properties such as
`toString`, creates or overwrites an own entry as usual. -/
def itemsWrite (items : List (JSVal × JSVal)) (key value : JSVal) :
    List (JSVal × JSVal) :=
  if key = .str "__proto__" then items else aset items key value

/-- `add(keyOrObjectWithId, valueIfKey)` over the actual `{}`-prototyped
`_items`: identical to `addOp` except that the item write goes through
`itemsWrite`, so `add('__proto__', v)` increments `_size` and records an
`add` in the pending buffer without creating any own item entry. -/
def addOpProto (c : Collection) (keyOrObjectWithId : JSVal)
    (valueIfKey : JSVal := .undefined) : OpResult :=
  match resolveItem keyOrObjectWithId valueIfKey with
  | .error e => ⟨c, [], some e⟩
  | .ok (key, value) =>
    if hasKey c key then ⟨c, [], some (.duplicateItem key)⟩
    else
      let c := { c with items := itemsWrite c.items key value, size := c.size + 1 }
      ⟨touchState c .add key, [], none⟩

/-- `set(keyOrObjectWithId, valueIfKey)` over the actual `{}`-prototyped
`_items`: identical to `setOp` except that the item write goes through
`itemsWrite`. -/
def setOpProto (c : Collection) (keyOrObjectWithId : JSVal)
    (valueIfKey : JSVal := .undefined) : OpResult :=
  match resolveItem keyOrObjectWithId valueIfKey with
  | .error e => ⟨c, [], some e⟩
  | .ok (key, value) =>
    let action : Action := if hasKey c key then .update else .add
    let c' := { c with items := itemsWrite c.items key value,
                       size := if action = .add then c.size + 1 else c.size }
    ⟨touchState c' action key, [], none⟩

/-- `touch(keyOrObjectWithId)`: the value must be a non-null object
(`typeof value !== 'object' || value === null` throws `IllegalTouch`). -/
def touchOp (c : Collection) (keyOrObjectWithId : JSVal) : OpResult :=
  match resolveItem keyOrObjectWithId with
  | .error e => ⟨c, [], some e⟩
  | .ok (key, _) =>
    if ¬ hasKey c key then ⟨c, [], some (.noSuchItem key)⟩
    else
      let value := (aget c.items key).getD .undefined
      match value with
      | .obj _ => ⟨touchState c .update key, [], none⟩
      | v => ⟨c, [], some (.illegalTouch v)⟩

/-- `unset(keyOrObjectWithId)`: silent no-op when the key is absent. -/
def unsetOp (c : Collection) (keyOrObjectWithId : JSVal) : OpResult :=
  match resolveItem keyOrObjectWithId with
  | .error e => ⟨c, [], some e⟩
  | .ok (key, _) =>
    if hasKey c key then
      let c := { c with items := adel c.items key, size := c.size - 1 }
      ⟨touchState c .remove key, [], none⟩
    else ⟨c, [], none⟩

/-- `update(keyOrObjectWithId, valueIfKey)` -/
def updateOp (c : Collection) (keyOrObjectWithId : JSVal)
    (valueIfKey : JSVal := .undefined) : OpResult :=
  match resolveItem keyOrObjectWithId valueIfKey with
  | .error e => ⟨c, [], some e⟩
  | .ok (key, value) =>
    if ¬ hasKey c key then ⟨c, [], some (.noSuchItem key)⟩
    else
      let c := { c with items := aset c.items key value }
      ⟨touchState c .update key, [], none⟩

/-- One-argument `get(key)`: throws `NoSuchItem` when absent. -/
def getOp1 (c : Collection) (key : JSVal) : Except CollError JSVal :=
  if hasKey c key then .ok ((aget c.items key).getD .undefined)
  else .error (.noSuchItem key)

/-- Two-argument `get(key, defaultValue)` (`arguments.length > 1`): returns
the default when the key is absent, never throws. -/
def getOp2 (c : Collection) (key : JSVal) (defaultValue : JSVal) : JSVal :=
  if hasKey c key then (aget c.items key).getD .undefined
  else defaultValue

/-- `createIndex(name, index)` -/
def createIndex (c : Collection) (name : String) (index : Idx) : OpResult :=
  if (aget c.indexes name).isSome then ⟨c, [], some (.duplicateIndex name)⟩
  else
    let c := { c with indexes := aset c.indexes name index,
                      indexedItems := aset c.indexedItems name index.items }
    ⟨c, [.attach name], none⟩

/-- `deleteIndex(name)` -/
def deleteIndex (c : Collection) (name : String) : OpResult :=
  if ¬ (aget c.indexes name).isSome then ⟨c, [], some (.noSuchIndex name)⟩
  else
    let c := { c with indexes := adel c.indexes name,
                      indexedItems := adel c.indexedItems name }
    ⟨c, [.detach name], none⟩

/-- `bufferEvents()` increments `_buffering`; its returned flush capability
is modelled by `flushRun` applied to the capability's `called` flag. -/
def bufferEvents (c : Collection) : Collection :=
  { c with buffering := c.buffering + 1 }

/-- One per-action slice of the `data` mapping built by the flush closure:
the pass `for key in buffer: data[buffer[key]][key] = items[key]` distributes
each buffer entry, paired with the key's current item value (`undefined` for
deleted keys), into the slice named by its action.  The key sets of the
slices are faithful; the payload read `this._items[key]` is modelled at the
own-property level: for a key with no own entry the `{}`-prototyped source
object would instead yield the inherited `Object.prototype` member (e.g.
`toString`), a JavaScript function value outside this value model and
declared unobservable for removed entries. -/
def eventGroup (c : Collection) (action : Action) : List (JSVal × JSVal) :=
  c.buffer.filterMap fun kv =>
    if kv.2 = action then some (kv.1, (aget c.items kv.1).getD .undefined)
    else none

/-- Result of invoking a flush capability: the capability's `called` flag,
the state, the emitted events and the thrown error if any. -/
structure FlushResult where
  called : Bool
  state : Collection
  events : List Event
  error : Option CollError
deriving DecidableEq, Repr

/-- The flush closure returned by `bufferEvents()`: throws
`BufferAlreadyFlushed` on a second call, decrements `_buffering`, returns
silently while nested scopes remain open or the buffer is empty, and
otherwise emits one event per non-empty action slice (in the order `add`,
`remove`, `update`), then `finish`, then clears the buffer. -/
def flushRun (called : Bool) (c : Collection) : FlushResult :=
  if called then ⟨called, c, [], some .bufferAlreadyFlushed⟩
  else
    let b := c.buffering - 1
    if b ≠ 0 then ⟨true, { c with buffering := b }, [], none⟩
    else
      let c := { c with buffering := b }
      if c.buffer.isEmpty then ⟨true, c, [], none⟩
      else
        let adds := eventGroup c .add
        let removes := eventGroup c .remove
        let updates := eventGroup c .update
        let evs :=
          (if adds.isEmpty then [] else [Event.change .add adds]) ++
          (if removes.isEmpty then [] else [Event.change .remove removes]) ++
          (if updates.isEmpty then [] else [Event.change .update updates]) ++
          [Event.finish]
        ⟨true, { c with buffer := [] }, evs, none⟩

/-- The mutation operations of the collection, for reasoning about
operation sequences. -/
inductive Op where
  | add : JSVal → JSVal → Op
  | set : JSVal → JSVal → Op
  | update : JSVal → JSVal → Op
  | remove : JSVal → Op
  | unset : JSVal → Op
  | touch : JSVal → Op
  | clear : Op
deriving DecidableEq, Repr

/-- Run one mutation operation. -/
def runOp (c : Collection) : Op → OpResult
  | .add k v => addOp c k v
  | .set k v => setOp c k v
  | .update k v => updateOp c k v
  | .remove k => removeOp c k
  | .unset k => unsetOp c k
  | .touch k => touchOp c k
  | .clear => clearOp c

/-- State after one operation (a thrown error leaves the state unchanged). -/
def applyOp (c : Collection) (op : Op) : Collection :=
  (runOp c op).state

/-- State after a sequence of operations. -/
def applyOps (c : Collection) (ops : List Op) : Collection :=
  ops.foldl applyOp c

/-! ### Association-list lemmas -/

section AListLemmas

variable {κ : Type} {α : Type} [DecidableEq κ]

/-- The keys of an association list. -/
def keysOf (l : List (κ × α)) : List κ :=
  l.map Prod.fst

theorem keysOf_nil : keysOf ([] : List (κ × α)) = [] := rfl

theorem keysOf_cons (p : κ × α) (t : List (κ × α)) :
    keysOf (p :: t) = p.1 :: keysOf t := rfl

theorem aget_aset_self (l : List (κ × α)) (key : κ) (v : α) :
    aget (aset l key v) key = some v := by
  induction l with
  | nil => simp [aget, aset]
  | cons p t ih =>
    obtain ⟨k, w⟩ := p
    by_cases h : k = key <;> simp [aget, aset, h, ih]

theorem aget_aset_ne (l : List (κ × α)) (key key' : κ) (v : α) (h : key' ≠ key) :
    aget (aset l key v) key' = aget l key' := by
  induction l with
  | nil => simp [aget, aset, Ne.symm h]
  | cons p t ih =>
    obtain ⟨k, w⟩ := p
    by_cases hk : k = key
    · subst hk
      simp [aget, aset, Ne.symm h]
    · simp only [aset, if_neg hk]
      by_cases hk' : k = key' <;> simp [aget, hk', ih]

theorem aget_adel_self (l : List (κ × α)) (key : κ) :
    aget (adel l key) key = none := by
  induction l with
  | nil => simp [aget, adel]
  | cons p t ih =>
    obtain ⟨k, w⟩ := p
    by_cases h : k = key <;> simp [aget, adel, h, ih]

theorem aget_adel_ne (l : List (κ × α)) (key key' : κ) (h : key' ≠ key) :
    aget (adel l key) key' = aget l key' := by
  induction l with
  | nil => simp [adel]
  | cons p t ih =>
    obtain ⟨k, w⟩ := p
    by_cases hk : k = key
    · subst hk
      simp [aget, adel, Ne.symm h, ih]
    · simp only [adel, if_neg hk]
      by_cases hk' : k = key' <;> simp [aget, hk', ih]

theorem aget_eq_none_iff (l : List (κ × α)) (key : κ) :
    aget l key = none ↔ key ∉ keysOf l := by
  induction l with
  | nil => simp [aget, keysOf]
  | cons p t ih =>
    obtain ⟨k, w⟩ := p
    by_cases h : k = key
    · simp [aget, keysOf_cons, h]
    · simp only [aget, if_neg h, keysOf_cons, List.mem_cons, ih]
      constructor
      · intro hn
        rintro (he | hm)
        · exact h he.symm
        · exact hn hm
      · intro hn hm
        exact hn (Or.inr hm)

theorem aget_isSome_iff (l : List (κ × α)) (key : κ) :
    (aget l key).isSome ↔ key ∈ keysOf l := by
  constructor
  · intro hs
    by_contra hmem
    rw [(aget_eq_none_iff l key).mpr hmem] at hs
    simp at hs
  · intro hmem
    cases h : aget l key with
    | none => exact absurd hmem ((aget_eq_none_iff l key).mp h)
    | some v => simp

theorem adel_of_none (l : List (κ × α)) (key : κ) (h : aget l key = none) :
    adel l key = l := by
  induction l with
  | nil => simp [adel]
  | cons p t ih =>
    obtain ⟨k, w⟩ := p
    by_cases hk : k = key
    · simp [aget, hk] at h
    · simp only [aget, if_neg hk] at h
      simp [adel, hk, ih h]

theorem keysOf_aset_of_some (l : List (κ × α)) (key : κ) (v : α)
    (h : (aget l key).isSome) : keysOf (aset l key v) = keysOf l := by
  induction l with
  | nil => simp [aget] at h
  | cons p t ih =>
    obtain ⟨k, w⟩ := p
    by_cases hk : k = key
    · simp [aset, hk, keysOf_cons]
    · simp only [aget, if_neg hk] at h
      simp [aset, hk, keysOf_cons, ih h]

theorem keysOf_aset_of_none (l : List (κ × α)) (key : κ) (v : α)
    (h : aget l key = none) : keysOf (aset l key v) = keysOf l ++ [key] := by
  induction l with
  | nil => simp [aset, keysOf]
  | cons p t ih =>
    obtain ⟨k, w⟩ := p
    by_cases hk : k = key
    · simp [aget, hk] at h
    · simp only [aget, if_neg hk] at h
      simp [aset, hk, keysOf_cons, ih h]

theorem nodup_keysOf_aset (l : List (κ × α)) (key : κ) (v : α)
    (h : (keysOf l).Nodup) : (keysOf (aset l key v)).Nodup := by
  cases hs : aget l key with
  | some w => rw [keysOf_aset_of_some l key v (by simp [hs])]; exact h
  | none =>
    rw [keysOf_aset_of_none l key v hs]
    have hmem : key ∉ keysOf l := (aget_eq_none_iff l key).mp hs
    simp [List.nodup_append, h, hmem]

theorem adel_sublist (l : List (κ × α)) (key : κ) : (adel l key).Sublist l := by
  induction l with
  | nil => simp [adel]
  | cons p t ih =>
    obtain ⟨k, w⟩ := p
    by_cases hk : k = key
    · simp only [adel, if_pos hk]
      exact ih.trans (List.sublist_cons_self _ _)
    · simp only [adel, if_neg hk]
      exact ih.cons₂ _

theorem nodup_keysOf_adel (l : List (κ × α)) (key : κ)
    (h : (keysOf l).Nodup) : (keysOf (adel l key)).Nodup :=
  List.Nodup.sublist ((adel_sublist l key).map Prod.fst) h

theorem length_aset_of_some (l : List (κ × α)) (key : κ) (v : α)
    (h : (aget l key).isSome) : (aset l key v).length = l.length := by
  have := keysOf_aset_of_some l key v h
  have h1 : (keysOf (aset l key v)).length = (keysOf l).length := by rw [this]
  simpa [keysOf] using h1

theorem length_aset_of_none (l : List (κ × α)) (key : κ) (v : α)
    (h : aget l key = none) : (aset l key v).length = l.length + 1 := by
  have := keysOf_aset_of_none l key v h
  have h1 : (keysOf (aset l key v)).length = (keysOf l).length + 1 := by
    rw [this]; simp
  simpa [keysOf] using h1

theorem length_adel_of_some (l : List (κ × α)) (key : κ)
    (h : (aget l key).isSome) (hnd : (keysOf l).Nodup) :
    (adel l key).length + 1 = l.length := by
  induction l with
  | nil => simp [aget] at h
  | cons p t ih =>
    obtain ⟨k, w⟩ := p
    rw [keysOf_cons] at hnd
    obtain ⟨hnm, hnd2⟩ := List.nodup_cons.mp hnd
    by_cases hk : k = key
    · subst hk
      have hnone : aget t k = none :=
        (aget_eq_none_iff t k).mpr (by simpa using hnm)
      simp [adel, adel_of_none t k hnone]
    · simp only [aget, if_neg hk] at h
      simp [adel, hk, ih h hnd2]

theorem aget_of_mem_nodup (l : List (κ × α)) (p : κ × α)
    (hmem : p ∈ l) (hnd : (keysOf l).Nodup) : aget l p.1 = some p.2 := by
  induction l with
  | nil => simp at hmem
  | cons q t ih =>
    rw [keysOf_cons] at hnd
    obtain ⟨hnm, hnd2⟩ := List.nodup_cons.mp hnd
    rcases List.mem_cons.mp hmem with h | h
    · subst h
      simp [aget]
    · have hne : q.1 ≠ p.1 := by
        intro he
        exact hnm (he ▸ (List.mem_map_of_mem Prod.fst h))
      simp [aget, hne, ih h hnd2]

end AListLemmas

/-! ### Pending-buffer and flush lemmas -/

/-- The net effect of merging one raw action into a single buffer slot
(the per-key content of `_touch`). -/
def touchEntry (action : Action) : Option Action → Option Action
  | some e =>
    match action with
    | .add => some .update
    | .remove => if e = .add then none else some .remove
    | .update => some e
  | none =>
    match action with
    | .add => some .add
    | .remove => some .remove
    | .update => some .update

theorem aget_touchBuffer_self (buf : List (JSVal × Action)) (a : Action) (key : JSVal) :
    aget (touchBuffer buf a key) key = touchEntry a (aget buf key) := by
  cases a with
  | add =>
    cases h : aget buf key with
    | some e => simp [touchBuffer, h, touchEntry, aget_aset_self]
    | none => simp [touchBuffer, h, touchEntry, aget_aset_self]
  | remove =>
    cases h : aget buf key with
    | some e =>
      cases e <;> simp [touchBuffer, h, touchEntry, aget_aset_self, aget_adel_self]
    | none => simp [touchBuffer, h, touchEntry, aget_aset_self]
  | update =>
    cases h : aget buf key with
    | some e => simp [touchBuffer, h, touchEntry]
    | none => simp [touchBuffer, h, touchEntry, aget_aset_self]

theorem aget_touchBuffer_ne (buf : List (JSVal × Action)) (a : Action)
    (key key' : JSVal) (h : key' ≠ key) :
    aget (touchBuffer buf a key) key' = aget buf key' := by
  cases a with
  | add =>
    cases hb : aget buf key <;>
      simp [touchBuffer, hb, aget_aset_ne _ _ _ _ h]
  | remove =>
    cases hb : aget buf key with
    | some e =>
      cases e <;>
        simp [touchBuffer, hb, aget_aset_ne _ _ _ _ h, aget_adel_ne _ _ _ h]
    | none => simp [touchBuffer, hb, aget_aset_ne _ _ _ _ h]
  | update =>
    cases hb : aget buf key <;>
      simp [touchBuffer, hb, aget_aset_ne _ _ _ _ h]

theorem nodup_keysOf_touchBuffer (buf : List (JSVal × Action)) (a : Action)
    (key : JSVal) (h : (keysOf buf).Nodup) :
    (keysOf (touchBuffer buf a key)).Nodup := by
  cases a with
  | add =>
    cases hb : aget buf key <;>
      simp [touchBuffer, hb, nodup_keysOf_aset _ _ _ h]
  | remove =>
    cases hb : aget buf key with
    | some e =>
      cases e <;>
        simp [touchBuffer, hb, nodup_keysOf_aset _ _ _ h, nodup_keysOf_adel _ _ h]
    | none => simp [touchBuffer, hb, nodup_keysOf_aset _ _ _ h]
  | update =>
    cases hb : aget buf key <;>
      simp [touchBuffer, hb, nodup_keysOf_aset _ _ _ h, h]

theorem touchState_items (c : Collection) (a : Action) (key : JSVal) :
    (touchState c a key).items = c.items := by
  unfold touchState
  by_cases h : c.buffering = 0 <;> simp [h]

theorem touchState_size (c : Collection) (a : Action) (key : JSVal) :
    (touchState c a key).size = c.size := by
  unfold touchState
  by_cases h : c.buffering = 0 <;> simp [h]

theorem touchState_buffer (c : Collection) (a : Action) (key : JSVal) :
    (touchState c a key).buffer = touchBuffer c.buffer a key := by
  unfold touchState
  by_cases h : c.buffering = 0 <;> simp [h]

theorem touchState_buffering_pos (c : Collection) (a : Action) (key : JSVal)
    (h : c.buffering ≠ 0) : (touchState c a key).buffering = c.buffering := by
  unfold touchState
  simp [h]

theorem aget_groupOf (buf : List (JSVal × Action)) (f : JSVal → JSVal)
    (a : Action) (k : JSVal) (hnd : (keysOf buf).Nodup) :
    aget (buf.filterMap fun kv => if kv.2 = a then some (kv.1, f kv.1) else none) k
      = if aget buf k = some a then some (f k) else none := by
  induction buf with
  | nil => simp [aget]
  | cons p t ih =>
    obtain ⟨j, act⟩ := p
    rw [keysOf_cons] at hnd
    obtain ⟨hnm, hnd2⟩ := List.nodup_cons.mp hnd
    by_cases ha : act = a
    · subst ha
      by_cases hk : j = k
      · subst hk
        simp [aget, List.filterMap_cons]
      · simp [aget, List.filterMap_cons, hk, ih hnd2]
    · by_cases hk : j = k
      · subst hk
        have hnone : aget t j = none :=
          (aget_eq_none_iff t j).mpr (by simpa using hnm)
        simp [aget, List.filterMap_cons, ha, ih hnd2, hnone,
          fun h : (a : Action) = act => ha h.symm]
      · simp [aget, List.filterMap_cons, ha, hk, ih hnd2]

theorem aget_eventGroup (c : Collection) (a : Action) (k : JSVal)
    (hnd : (keysOf c.buffer).Nodup) :
    aget (eventGroup c a) k =
      if aget c.buffer k = some a then some ((aget c.items k).getD .undefined)
      else none := by
  unfold eventGroup
  exact aget_groupOf c.buffer (fun key => (aget c.items key).getD .undefined) a k hnd

theorem touchEntry_remove_eq (e : Option Action) :
    touchEntry .remove e = if e = some .add then none else some .remove := by
  cases e with
  | none => simp [touchEntry]
  | some a => cases a <;> simp [touchEntry]

/-! ### `clear()` loop lemmas -/

theorem clearStep_items (c : Collection) (key : JSVal) :
    (clearStep c key).items = adel c.items key := by
  unfold clearStep
  rw [touchState_items]

theorem clearStep_size (c : Collection) (key : JSVal) :
    (clearStep c key).size = c.size - 1 := by
  unfold clearStep
  rw [touchState_size]

theorem clearStep_buffer (c : Collection) (key : JSVal) :
    (clearStep c key).buffer = touchBuffer c.buffer .remove key := by
  unfold clearStep
  rw [touchState_buffer]

theorem clearStep_buffering (c : Collection) (key : JSVal) (h : c.buffering ≠ 0) :
    (clearStep c key).buffering = c.buffering := by
  unfold clearStep
  rw [touchState_buffering_pos]
  exact h

theorem clearLoop_buffer (l : List (JSVal × JSVal)) (c : Collection) :
    (clearLoop c l).buffer =
      l.foldl (fun b kv => touchBuffer b .remove kv.1) c.buffer := by
  induction l generalizing c with
  | nil => rfl
  | cons p t ih =>
    obtain ⟨j, v⟩ := p
    show (clearLoop (clearStep c j) t).buffer = _
    rw [ih, clearStep_buffer]
    rfl

theorem clearLoop_items (l : List (JSVal × JSVal)) (c : Collection)
    (h : c.items = l) (hnd : (keysOf l).Nodup) : (clearLoop c l).items = [] := by
  induction l generalizing c with
  | nil => exact h
  | cons p t ih =>
    obtain ⟨j, v⟩ := p
    rw [keysOf_cons] at hnd
    obtain ⟨hnm, hnd2⟩ := List.nodup_cons.mp hnd
    show (clearLoop (clearStep c j) t).items = []
    refine ih (clearStep c j) ?_ hnd2
    rw [clearStep_items, h]
    have hnone : aget t j = none := (aget_eq_none_iff t j).mpr (by simpa using hnm)
    simp [adel, adel_of_none t j hnone]

theorem clearLoop_size (l : List (JSVal × JSVal)) (c : Collection)
    (h : c.items = l) (hnd : (keysOf l).Nodup) :
    (clearLoop c l).size = c.size - l.length := by
  induction l generalizing c with
  | nil => simp [clearLoop]
  | cons p t ih =>
    obtain ⟨j, v⟩ := p
    rw [keysOf_cons] at hnd
    obtain ⟨hnm, hnd2⟩ := List.nodup_cons.mp hnd
    show (clearLoop (clearStep c j) t).size = _
    have hitems : (clearStep c j).items = t := by
      rw [clearStep_items, h]
      have hnone : aget t j = none := (aget_eq_none_iff t j).mpr (by simpa using hnm)
      simp [adel, adel_of_none t j hnone]
    rw [ih (clearStep c j) hitems hnd2, clearStep_size]
    simp only [List.length_cons]
    push_cast
    ring

theorem clearLoop_buffering (l : List (JSVal × JSVal)) (c : Collection)
    (h : c.buffering ≠ 0) : (clearLoop c l).buffering = c.buffering := by
  induction l generalizing c with
  | nil => rfl
  | cons p t ih =>
    obtain ⟨j, v⟩ := p
    show (clearLoop (clearStep c j) t).buffering = _
    rw [ih (clearStep c j) (by rw [clearStep_buffering c j h]; exact h),
      clearStep_buffering c j h]

theorem foldl_touchRemove_aget (l : List (JSVal × JSVal))
    (b0 : List (JSVal × Action)) (k : JSVal) (hnd : (keysOf l).Nodup) :
    aget (l.foldl (fun b kv => touchBuffer b .remove kv.1) b0) k =
      if k ∈ keysOf l then (if aget b0 k = some .add then none else some .remove)
      else aget b0 k := by
  induction l generalizing b0 with
  | nil => simp [keysOf]
  | cons p t ih =>
    obtain ⟨j, v⟩ := p
    rw [keysOf_cons] at hnd
    obtain ⟨hnm, hnd2⟩ := List.nodup_cons.mp hnd
    simp only [List.foldl_cons]
    rw [ih (touchBuffer b0 .remove j) hnd2]
    by_cases hk : k = j
    · subst hk
      have hmem : k ∉ keysOf t := by simpa using hnm
      simp [hmem, keysOf_cons, aget_touchBuffer_self, touchEntry_remove_eq]
    · rw [aget_touchBuffer_ne _ _ _ _ hk]
      simp [keysOf_cons, hk]

theorem foldl_touchRemove_nodup (l : List (JSVal × JSVal))
    (b0 : List (JSVal × Action)) (hnd : (keysOf b0).Nodup) :
    (keysOf (l.foldl (fun b kv => touchBuffer b .remove kv.1) b0)).Nodup := by
  induction l generalizing b0 with
  | nil => exact hnd
  | cons p t ih =>
    simp only [List.foldl_cons]
    exact ih _ (nodup_keysOf_touchBuffer _ _ _ hnd)

/-! ### The size/uniqueness invariant (spec I1) -/

/-- Structural invariant of reachable collection states: the item and buffer
mappings have unique keys and `size` counts the items. -/
def Inv (c : Collection) : Prop :=
  (keysOf c.items).Nodup ∧ (keysOf c.buffer).Nodup ∧ c.size = (c.items.length : Int)

theorem Inv_empty : Inv emptyCollection := by
  refine ⟨?_, ?_, ?_⟩ <;> simp [emptyCollection, keysOf]

theorem Inv_touchState (c : Collection) (a : Action) (key : JSVal)
    (h : Inv c) : Inv (touchState c a key) := by
  obtain ⟨h1, h2, h3⟩ := h
  refine ⟨?_, ?_, ?_⟩
  · rw [touchState_items]; exact h1
  · rw [touchState_buffer]; exact nodup_keysOf_touchBuffer _ _ _ h2
  · rw [touchState_size, touchState_items]; exact h3

theorem Inv_runOp (c : Collection) (op : Op) (h : Inv c) :
    Inv (runOp c op).state := by
  obtain ⟨h1, h2, h3⟩ := h
  cases op with
  | add k v =>
    show Inv (addOp c k v).state
    unfold addOp
    cases hres : resolveItem k v with
    | error e => exact ⟨h1, h2, h3⟩
    | ok kv =>
      obtain ⟨key, value⟩ := kv
      by_cases hhas : hasKey c key
      · simp only [hhas, if_true]
        exact ⟨h1, h2, h3⟩
      · simp only [hhas, if_false]
        refine Inv_touchState _ _ _ ⟨?_, h2, ?_⟩
        · exact nodup_keysOf_aset _ _ _ h1
        · have hnone : aget c.items key = none := by
            unfold hasKey at hhas
            simpa using hhas
          rw [length_aset_of_none _ _ _ hnone]
          push_cast
          omega
  | set k v =>
    show Inv (setOp c k v).state
    unfold setOp
    cases hres : resolveItem k v with
    | error e => exact ⟨h1, h2, h3⟩
    | ok kv =>
      obtain ⟨key, value⟩ := kv
      by_cases hhas : hasKey c key
      · simp only [hhas, if_true]
        refine Inv_touchState _ _ _ ⟨?_, h2, ?_⟩
        · exact nodup_keysOf_aset _ _ _ h1
        · have hsome : (aget c.items key).isSome := by
            unfold hasKey at hhas
            simpa using hhas
          simp only [show (Action.update = Action.add) = False by simp, if_false]
          rw [length_aset_of_some _ _ _ hsome]
          exact h3
      · simp only [hhas, if_false]
        refine Inv_touchState _ _ _ ⟨?_, h2, ?_⟩
        · exact nodup_keysOf_aset _ _ _ h1
        · have hnone : aget c.items key = none := by
            unfold hasKey at hhas
            simpa using hhas
          simp only [Bool.false_eq_true, if_false, if_true]
          rw [length_aset_of_none _ _ _ hnone]
          push_cast
          omega
  | update k v =>
    show Inv (updateOp c k v).state
    unfold updateOp
    cases hres : resolveItem k v with
    | error e => exact ⟨h1, h2, h3⟩
    | ok kv =>
      obtain ⟨key, value⟩ := kv
      by_cases hhas : hasKey c key
      · simp only [hhas, not_true, if_neg, reduceIte]
        refine Inv_touchState _ _ _ ⟨?_, h2, ?_⟩
        · exact nodup_keysOf_aset _ _ _ h1
        · have hsome : (aget c.items key).isSome := by
            unfold hasKey at hhas
            simpa using hhas
          rw [length_aset_of_some _ _ _ hsome]
          exact h3
      · simp only [hhas, not_false_iff, reduceIte]
        exact ⟨h1, h2, h3⟩
  | remove k =>
    show Inv (removeOp c k).state
    unfold removeOp
    cases hres : resolveItem k with
    | error e => exact ⟨h1, h2, h3⟩
    | ok kv =>
      obtain ⟨key, value⟩ := kv
      by_cases hhas : hasKey c key
      · simp only [hhas, not_true, reduceIte]
        refine Inv_touchState _ _ _ ⟨?_, h2, ?_⟩
        · exact nodup_keysOf_adel _ _ h1
        · have hsome : (aget c.items key).isSome := by
            unfold hasKey at hhas
            simpa using hhas
          have := length_adel_of_some c.items key hsome h1
          push_cast
          omega
      · simp only [hhas, not_false_iff, reduceIte]
        exact ⟨h1, h2, h3⟩
  | unset k =>
    show Inv (unsetOp c k).state
    unfold unsetOp
    cases hres : resolveItem k with
    | error e => exact ⟨h1, h2, h3⟩
    | ok kv =>
      obtain ⟨key, value⟩ := kv
      by_cases hhas : hasKey c key
      · simp only [hhas, if_true]
        refine Inv_touchState _ _ _ ⟨?_, h2, ?_⟩
        · exact nodup_keysOf_adel _ _ h1
        · have hsome : (aget c.items key).isSome := by
            unfold hasKey at hhas
            simpa using hhas
          have := length_adel_of_some c.items key hsome h1
          push_cast
          omega
      · simp only [hhas, if_false]
        exact ⟨h1, h2, h3⟩
  | touch k =>
    show Inv (touchOp c k).state
    unfold touchOp
    cases hres : resolveItem k with
    | error e => exact ⟨h1, h2, h3⟩
    | ok kv =>
      obtain ⟨key, value⟩ := kv
      by_cases hhas : hasKey c key
      · simp only [hhas, not_true, reduceIte]
        cases hval : (aget c.items key).getD .undefined with
        | obj i => exact Inv_touchState _ _ _ ⟨h1, h2, h3⟩
        | undefined => exact ⟨h1, h2, h3⟩
        | null => exact ⟨h1, h2, h3⟩
        | bool b => exact ⟨h1, h2, h3⟩
        | num q => exact ⟨h1, h2, h3⟩
        | str s => exact ⟨h1, h2, h3⟩
      · simp only [hhas, not_false_iff, reduceIte]
        exact ⟨h1, h2, h3⟩
  | clear =>
    show Inv (clearOp c).state
    unfold clearOp
    refine ⟨?_, ?_, ?_⟩
    · rw [clearLoop_items c.items c rfl h1]
      simp [keysOf]
    · rw [clearLoop_buffer]
      exact foldl_touchRemove_nodup _ _ h2
    · rw [clearLoop_items c.items c rfl h1, clearLoop_size c.items c rfl h1, h3]
      simp

theorem Inv_applyOp (c : Collection) (op : Op) (h : Inv c) : Inv (applyOp c op) :=
  Inv_runOp c op h

theorem Inv_applyOps (c : Collection) (ops : List Op) (h : Inv c) :
    Inv (applyOps c ops) := by
  induction ops generalizing c with
  | nil => exact h
  | cons op t ih => exact ih (applyOp c op) (Inv_applyOp c op h)

/-! ### The net-effect invariant of the pending buffer (spec I2) -/

/-- Relation between a key's presence at the last flush boundary (`p0`), its
buffer slot (`e`) and its current presence (`p`): the slot records the net
transition of the key since the boundary. -/
def keyNetP (p0 : Bool) (e : Option Action) (p : Bool) : Prop :=
  match e with
  | none => p = p0
  | some .add => p = true ∧ p0 = false
  | some .update => p = true ∧ p0 = true
  | some .remove => p = false ∧ p0 = true

/-- `keyNet c0 c k`: the buffer slot of `k` in `c` records the net presence
transition of `k` from the flush-boundary state `c0` to `c`. -/
def keyNet (c0 c : Collection) (k : JSVal) : Prop :=
  keyNetP (hasKey c0 k) (aget c.buffer k) (hasKey c k)

theorem keyNetP_touch (p0 p p' : Bool) (e : Option Action) (a : Action)
    (h : keyNetP p0 e p)
    (ha : match a with
          | .add => p = false ∧ p' = true
          | .remove => p = true ∧ p' = false
          | .update => p = true ∧ p' = true) :
    keyNetP p0 (touchEntry a e) p' := by
  cases a <;> obtain ⟨hp, hp'⟩ := ha <;> subst hp <;> subst hp' <;>
    rcases e with _ | e'
  case add.intro.none => simpa [touchEntry, keyNetP] using h.symm
  case add.intro.some =>
    cases e' <;> simp [touchEntry, keyNetP] at h ⊢ <;> tauto
  case remove.intro.none => simpa [touchEntry, keyNetP] using h.symm
  case remove.intro.some =>
    cases e' <;> simp [touchEntry, keyNetP] at h ⊢ <;> tauto
  case update.intro.none => simpa [touchEntry, keyNetP] using h.symm
  case update.intro.some =>
    cases e' <;> simp [touchEntry, keyNetP] at h ⊢ <;> tauto

theorem keyNet_of_components (c0 c c' : Collection) (k : JSVal)
    (hb : aget c'.buffer k = aget c.buffer k)
    (hi : hasKey c' k = hasKey c k)
    (h : keyNet c0 c k) : keyNet c0 c' k := by
  unfold keyNet at h ⊢
  rw [hb, hi]
  exact h

theorem keyNet_touched (c0 c c' : Collection) (k : JSVal) (a : Action)
    (hb : aget c'.buffer k = touchEntry a (aget c.buffer k))
    (ha : match a with
          | .add => hasKey c k = false ∧ hasKey c' k = true
          | .remove => hasKey c k = true ∧ hasKey c' k = false
          | .update => hasKey c k = true ∧ hasKey c' k = true)
    (h : keyNet c0 c k) : keyNet c0 c' k := by
  unfold keyNet at h ⊢
  rw [hb]
  exact keyNetP_touch _ _ _ _ _ h (by cases a <;> exact ha)

theorem keyNet_init (c0 : Collection) (k : JSVal) (h0 : c0.buffer = []) :
    keyNet c0 c0 k := by
  unfold keyNet
  rw [h0]
  rfl

theorem keyNet_runOp (c0 c : Collection) (op : Op) (k : JSVal)
    (hInv : Inv c) (h : keyNet c0 c k) : keyNet c0 (runOp c op).state k := by
  obtain ⟨h1, h2, h3⟩ := hInv
  cases op with
  | add kk v =>
    show keyNet c0 (addOp c kk v).state k
    unfold addOp
    cases hres : resolveItem kk v with
    | error e => exact h
    | ok kv =>
      obtain ⟨key, value⟩ := kv
      by_cases hhas : hasKey c key
      · simp only [hhas, eq_self_iff_true, not_true, not_false_eq_true, Bool.false_eq_true, if_true, if_false]
        exact h
      · simp only [hhas, eq_self_iff_true, not_true, not_false_eq_true, Bool.false_eq_true, if_true, if_false]
        show keyNet c0
          (touchState { c with items := aset c.items key value, size := c.size + 1 }
            .add key) k
        by_cases hkey : key = k
        · subst hkey
          refine keyNet_touched c0 c _ key .add ?_ ⟨by simpa using hhas, ?_⟩ h
          · rw [touchState_buffer]
            exact aget_touchBuffer_self _ _ _
          · unfold hasKey
            rw [touchState_items]
            show (aget (aset c.items key value) key).isSome = true
            rw [aget_aset_self]
            rfl
        · refine keyNet_of_components c0 c _ k ?_ ?_ h
          · rw [touchState_buffer]
            exact aget_touchBuffer_ne _ _ _ _ (fun he => hkey he.symm)
          · unfold hasKey
            rw [touchState_items]
            show (aget (aset c.items key value) k).isSome = _
            rw [aget_aset_ne _ _ _ _ (fun he => hkey he.symm)]
  | set kk v =>
    show keyNet c0 (setOp c kk v).state k
    unfold setOp
    cases hres : resolveItem kk v with
    | error e => exact h
    | ok kv =>
      obtain ⟨key, value⟩ := kv
      by_cases hhas : hasKey c key
      · simp only [hhas, eq_self_iff_true, not_true, not_false_eq_true, Bool.false_eq_true, if_true, if_false]
        show keyNet c0
          (touchState { c with items := aset c.items key value, size := c.size } .update
            key) k
        by_cases hkey : key = k
        · subst hkey
          refine keyNet_touched c0 c _ key .update ?_ ⟨hhas, ?_⟩ h
          · rw [touchState_buffer]
            exact aget_touchBuffer_self _ _ _
          · unfold hasKey
            rw [touchState_items]
            show (aget (aset c.items key value) key).isSome = true
            rw [aget_aset_self]
            rfl
        · refine keyNet_of_components c0 c _ k ?_ ?_ h
          · rw [touchState_buffer]
            exact aget_touchBuffer_ne _ _ _ _ (fun he => hkey he.symm)
          · unfold hasKey
            rw [touchState_items]
            show (aget (aset c.items key value) k).isSome = _
            rw [aget_aset_ne _ _ _ _ (fun he => hkey he.symm)]
      · simp only [hhas, eq_self_iff_true, not_true, not_false_eq_true, Bool.false_eq_true, if_true, if_false]
        show keyNet c0
          (touchState { c with items := aset c.items key value, size := c.size + 1 }
            .add key) k
        by_cases hkey : key = k
        · subst hkey
          refine keyNet_touched c0 c _ key .add ?_ ⟨by simpa using hhas, ?_⟩ h
          · rw [touchState_buffer]
            exact aget_touchBuffer_self _ _ _
          · unfold hasKey
            rw [touchState_items]
            show (aget (aset c.items key value) key).isSome = true
            rw [aget_aset_self]
            rfl
        · refine keyNet_of_components c0 c _ k ?_ ?_ h
          · rw [touchState_buffer]
            exact aget_touchBuffer_ne _ _ _ _ (fun he => hkey he.symm)
          · unfold hasKey
            rw [touchState_items]
            show (aget (aset c.items key value) k).isSome = _
            rw [aget_aset_ne _ _ _ _ (fun he => hkey he.symm)]
  | update kk v =>
    show keyNet c0 (updateOp c kk v).state k
    unfold updateOp
    cases hres : resolveItem kk v with
    | error e => exact h
    | ok kv =>
      obtain ⟨key, value⟩ := kv
      by_cases hhas : hasKey c key
      · simp only [hhas, eq_self_iff_true, not_true, not_false_eq_true, Bool.false_eq_true, if_true, if_false]
        show keyNet c0 (touchState { c with items := aset c.items key value } .update key) k
        by_cases hkey : key = k
        · subst hkey
          refine keyNet_touched c0 c _ key .update ?_ ⟨hhas, ?_⟩ h
          · rw [touchState_buffer]
            exact aget_touchBuffer_self _ _ _
          · unfold hasKey
            rw [touchState_items]
            show (aget (aset c.items key value) key).isSome = true
            rw [aget_aset_self]
            rfl
        · refine keyNet_of_components c0 c _ k ?_ ?_ h
          · rw [touchState_buffer]
            exact aget_touchBuffer_ne _ _ _ _ (fun he => hkey he.symm)
          · unfold hasKey
            rw [touchState_items]
            show (aget (aset c.items key value) k).isSome = _
            rw [aget_aset_ne _ _ _ _ (fun he => hkey he.symm)]
      · simp only [hhas, eq_self_iff_true, not_true, not_false_eq_true, Bool.false_eq_true, if_true, if_false]
        exact h
  | remove kk =>
    show keyNet c0 (removeOp c kk).state k
    unfold removeOp
    cases hres : resolveItem kk with
    | error e => exact h
    | ok kv =>
      obtain ⟨key, value⟩ := kv
      by_cases hhas : hasKey c key
      · simp only [hhas, eq_self_iff_true, not_true, not_false_eq_true, Bool.false_eq_true, if_true, if_false]
        show keyNet c0
          (touchState { c with items := adel c.items key, size := c.size - 1 } .remove
            key) k
        by_cases hkey : key = k
        · subst hkey
          refine keyNet_touched c0 c _ key .remove ?_ ⟨hhas, ?_⟩ h
          · rw [touchState_buffer]
            exact aget_touchBuffer_self _ _ _
          · unfold hasKey
            rw [touchState_items]
            show (aget (adel c.items key) key).isSome = false
            rw [aget_adel_self]
            rfl
        · refine keyNet_of_components c0 c _ k ?_ ?_ h
          · rw [touchState_buffer]
            exact aget_touchBuffer_ne _ _ _ _ (fun he => hkey he.symm)
          · unfold hasKey
            rw [touchState_items]
            show (aget (adel c.items key) k).isSome = _
            rw [aget_adel_ne _ _ _ (fun he => hkey he.symm)]
      · simp only [hhas, eq_self_iff_true, not_true, not_false_eq_true, Bool.false_eq_true, if_true, if_false]
        exact h
  | unset kk =>
    show keyNet c0 (unsetOp c kk).state k
    unfold unsetOp
    cases hres : resolveItem kk with
    | error e => exact h
    | ok kv =>
      obtain ⟨key, value⟩ := kv
      by_cases hhas : hasKey c key
      · simp only [hhas, eq_self_iff_true, not_true, not_false_eq_true, Bool.false_eq_true, if_true, if_false]
        show keyNet c0
          (touchState { c with items := adel c.items key, size := c.size - 1 } .remove
            key) k
        by_cases hkey : key = k
        · subst hkey
          refine keyNet_touched c0 c _ key .remove ?_ ⟨hhas, ?_⟩ h
          · rw [touchState_buffer]
            exact aget_touchBuffer_self _ _ _
          · unfold hasKey
            rw [touchState_items]
            show (aget (adel c.items key) key).isSome = false
            rw [aget_adel_self]
            rfl
        · refine keyNet_of_components c0 c _ k ?_ ?_ h
          · rw [touchState_buffer]
            exact aget_touchBuffer_ne _ _ _ _ (fun he => hkey he.symm)
          · unfold hasKey
            rw [touchState_items]
            show (aget (adel c.items key) k).isSome = _
            rw [aget_adel_ne _ _ _ (fun he => hkey he.symm)]
      · simp only [hhas, eq_self_iff_true, not_true, not_false_eq_true, Bool.false_eq_true, if_true, if_false]
        exact h
  | touch kk =>
    show keyNet c0 (touchOp c kk).state k
    unfold touchOp
    cases hres : resolveItem kk with
    | error e => exact h
    | ok kv =>
      obtain ⟨key, value⟩ := kv
      by_cases hhas : hasKey c key
      · simp only [hhas, eq_self_iff_true, not_true, not_false_eq_true, Bool.false_eq_true, if_true, if_false]
        cases hval : (aget c.items key).getD .undefined with
        | obj i =>
          show keyNet c0 (touchState c .update key) k
          by_cases hkey : key = k
          · subst hkey
            refine keyNet_touched c0 c _ key .update ?_ ⟨hhas, ?_⟩ h
            · rw [touchState_buffer]
              exact aget_touchBuffer_self _ _ _
            · unfold hasKey
              rw [touchState_items]
              exact hhas
          · refine keyNet_of_components c0 c _ k ?_ ?_ h
            · rw [touchState_buffer]
              exact aget_touchBuffer_ne _ _ _ _ (fun he => hkey he.symm)
            · unfold hasKey
              rw [touchState_items]
        | undefined => exact h
        | null => exact h
        | bool b => exact h
        | num q => exact h
        | str s => exact h
      · simp only [hhas, eq_self_iff_true, not_true, not_false_eq_true, Bool.false_eq_true, if_true, if_false]
        exact h
  | clear =>
    show keyNet c0 (clearOp c).state k
    unfold clearOp
    unfold keyNet at h ⊢
    have hbuf : aget (clearLoop c c.items).buffer k =
        if k ∈ keysOf c.items
        then (if aget c.buffer k = some .add then none else some .remove)
        else aget c.buffer k := by
      rw [clearLoop_buffer]
      exact foldl_touchRemove_aget c.items c.buffer k h1
    have hit : hasKey (clearLoop c c.items) k = false := by
      unfold hasKey
      rw [clearLoop_items c.items c rfl h1]
      rfl
    show keyNetP (hasKey c0 k) (aget (clearLoop c c.items).buffer k)
      (hasKey (clearLoop c c.items) k)
    rw [hbuf, hit]
    by_cases hmem : k ∈ keysOf c.items
    · have hK : hasKey c k = true := by
        unfold hasKey
        rw [aget_isSome_iff]
        exact hmem
      rw [hK] at h
      rw [if_pos hmem]
      cases he : aget c.buffer k with
      | none =>
        rw [he] at h
        rw [if_neg (by simp)]
        exact ⟨rfl, h.symm⟩
      | some a =>
        rw [he] at h
        cases a with
        | add =>
          rw [if_pos rfl]
          exact h.2.symm ▸ rfl
        | update =>
          rw [if_neg (by simp)]
          exact ⟨rfl, h.2⟩
        | remove =>
          exact absurd h.1 (by simp [hK])
    · have hK : hasKey c k = false := by
        unfold hasKey
        rw [← Bool.not_eq_true, aget_isSome_iff]
        exact hmem
      rw [hK] at h
      rw [if_neg hmem]
      exact h


theorem keyNet_applyOps (c0 c : Collection) (ops : List Op) (k : JSVal)
    (hInv : Inv c) (h : keyNet c0 c k) : keyNet c0 (applyOps c ops) k := by
  induction ops generalizing c with
  | nil => exact h
  | cons op t ih =>
    exact ih (applyOp c op) (Inv_applyOp c op hInv) (keyNet_runOp c0 c op k hInv h)

/-! ### Flush structure lemmas -/

theorem flushRun_nested (c : Collection) (hb : c.buffering - 1 ≠ 0) :
    flushRun false c = ⟨true, { c with buffering := c.buffering - 1 }, [], none⟩ := by
  unfold flushRun
  simp only [Bool.false_eq_true, if_false]
  rw [if_pos hb]

theorem flushRun_one_empty (c : Collection) (hb : c.buffering = 1)
    (he : c.buffer = []) :
    flushRun false c = ⟨true, { c with buffering := 0 }, [], none⟩ := by
  unfold flushRun
  rw [hb]
  norm_num [he]

theorem flushRun_one (c : Collection) (hb : c.buffering = 1) (hne : c.buffer ≠ []) :
    flushRun false c =
      ⟨true, { c with buffering := 0, buffer := [] },
        (if (eventGroup c .add).isEmpty then []
         else [Event.change .add (eventGroup c .add)]) ++
        (if (eventGroup c .remove).isEmpty then []
         else [Event.change .remove (eventGroup c .remove)]) ++
        (if (eventGroup c .update).isEmpty then []
         else [Event.change .update (eventGroup c .update)]) ++
        [Event.finish], none⟩ := by
  have hbe : c.buffer.isEmpty = false := by
    cases hb2 : c.buffer with
    | nil => exact absurd hb2 hne
    | cons p t => rfl
  unfold flushRun
  rw [hb]
  norm_num [hbe]
  rfl

/-! ### Claim theorems -/

/-- Concrete state used by witnesses: one item and a pending `add` entry
inside a manually opened buffering scope. -/
def cFlushW : Collection :=
  { items := [(.str "a", .num 1)], size := 1, buffer := [(.str "a", .add)],
    buffering := 1, scheduled := true, indexes := [], indexedItems := [] }

/-- The same state inside two nested buffering scopes. -/
def cNestW : Collection :=
  { cFlushW with buffering := 2 }

/-- C3: a flush invocation that brings `bufferDepth` to 0 with a non-empty
pending log partitions the logged keys into three disjoint action sets,
emits one event per non-empty set mapping each affected key to its current
value, then the terminal `finish` signal, then clears the pending log; with
an empty pending log it emits nothing at all. -/
theorem spec_C3 (c : Collection) (hb : c.buffering = 1)
    (hnd : (keysOf c.buffer).Nodup) :
    (c.buffer = [] → flushRun false c = ⟨true, { c with buffering := 0 }, [], none⟩)
  ∧ (c.buffer ≠ [] →
      flushRun false c =
        ⟨true, { c with buffering := 0, buffer := [] },
          (if (eventGroup c .add).isEmpty then []
           else [Event.change .add (eventGroup c .add)]) ++
          (if (eventGroup c .remove).isEmpty then []
           else [Event.change .remove (eventGroup c .remove)]) ++
          (if (eventGroup c .update).isEmpty then []
           else [Event.change .update (eventGroup c .update)]) ++
          [Event.finish], none⟩)
  ∧ (∀ k a, aget (eventGroup c a) k =
      if aget c.buffer k = some a then some ((aget c.items k).getD .undefined)
      else none)
  ∧ (∀ k a b, a ≠ b → (aget (eventGroup c a) k).isSome →
      aget (eventGroup c b) k = none) := by
  refine ⟨fun he => flushRun_one_empty c hb he, fun hne => flushRun_one c hb hne,
    fun k a => aget_eventGroup c a k hnd, ?_⟩
  intro k a b hab hsome
  rw [aget_eventGroup c a k hnd] at hsome
  rw [aget_eventGroup c b k hnd]
  by_cases hcb : aget c.buffer k = some a
  · refine if_neg ?_
    intro hcb2
    rw [hcb] at hcb2
    exact hab (Option.some.inj hcb2)
  · rw [if_neg hcb] at hsome
    simp at hsome

/-- Witness for C3 at a concrete state: flushing a one-entry log emits the
`add` event and `finish`, and clears the log. -/
theorem spec_C3_witness :
    flushRun false cFlushW =
      ⟨true, { cFlushW with buffering := 0, buffer := [] },
        [Event.change .add [(.str "a", .num 1)], Event.finish], none⟩ :=
  ((spec_C3 cFlushW (by decide) (by decide)).2.1 (by decide)).trans (by decide)

/-- C4: invoking the flush capability of an inner scope (decrement leaves
`bufferDepth` > 0) emits nothing and clears nothing; only the invocation
that brings the depth to 0 emits the combined coalesced batch. -/
theorem spec_C4 (c : Collection) (hb : 2 ≤ c.buffering) :
    flushRun false c = ⟨true, { c with buffering := c.buffering - 1 }, [], none⟩
  ∧ (c.buffering = 2 → c.buffer ≠ [] →
      flushRun false (flushRun false c).state =
        ⟨true, { c with buffering := 0, buffer := [] },
          (if (eventGroup c .add).isEmpty then []
           else [Event.change .add (eventGroup c .add)]) ++
          (if (eventGroup c .remove).isEmpty then []
           else [Event.change .remove (eventGroup c .remove)]) ++
          (if (eventGroup c .update).isEmpty then []
           else [Event.change .update (eventGroup c .update)]) ++
          [Event.finish], none⟩) := by
  constructor
  · exact flushRun_nested c (by omega)
  · intro hb2 hne
    have h1 : flushRun false c = ⟨true, { c with buffering := c.buffering - 1 }, [], none⟩ :=
      flushRun_nested c (by omega)
    rw [h1]
    have hb1 : ({ c with buffering := c.buffering - 1 } : Collection).buffering = 1 := by
      show c.buffering - 1 = 1
      omega
    exact (flushRun_one { c with buffering := c.buffering - 1 } hb1 hne).trans (by rfl)

/-- Witness for C4 at a concrete state: closing the inner of two scopes
emits nothing; closing the outer one then emits the coalesced batch. -/
theorem spec_C4_witness :
    flushRun false cNestW = ⟨true, { cNestW with buffering := 1 }, [], none⟩ ∧
    flushRun false (flushRun false cNestW).state =
      ⟨true, { cNestW with buffering := 0, buffer := [] },
        [Event.change .add [(.str "a", .num 1)], Event.finish], none⟩ :=
  ⟨(spec_C4 cNestW (by decide)).1.trans (by decide),
   ((spec_C4 cNestW (by decide)).2 (by decide) (by decide)).trans (by decide)⟩

/-- C5: a flush capability invoked a second time fails with
`BufferAlreadyFlushed` and has no side effects: the state is returned
unchanged and no events are emitted, whatever the first call produced. -/
theorem spec_C5 :
    (∀ c, flushRun true c = ⟨true, c, [], some .bufferAlreadyFlushed⟩)
  ∧ (∀ c r, flushRun false c = r → r.error = none →
      flushRun true r.state = ⟨true, r.state, [], some .bufferAlreadyFlushed⟩) := by
  constructor
  · intro c
    rfl
  · intro c r h he
    rfl

/-- Witness for C5 at a concrete state: after a successful first flush, the
second invocation fails with `BufferAlreadyFlushed` leaving the flushed
state untouched. -/
theorem spec_C5_witness :
    flushRun true (flushRun false cFlushW).state =
      ⟨true, (flushRun false cFlushW).state, [], some .bufferAlreadyFlushed⟩ :=
  spec_C5.2 cFlushW (flushRun false cFlushW) rfl (by decide)

/-! ### Operation characterizations for valid keys -/

theorem resolveItem_validKey (k v : JSVal) (h : isValidKey k = true) :
    resolveItem k v = .ok (k, v) := by
  unfold resolveItem
  by_cases hv : v = .undefined
  · subst hv
    simp [h]
  · simp [hv, h]

theorem removeOp_present (c : Collection) (k : JSVal) (hkey : isValidKey k = true)
    (hH : hasKey c k = true) :
    removeOp c k =
      ⟨touchState { c with items := adel c.items k, size := c.size - 1 } .remove k,
        [], none⟩ := by
  simp only [removeOp, resolveItem_validKey k .undefined hkey, hH, eq_self_iff_true,
    not_true, not_false_eq_true, Bool.false_eq_true, if_true, if_false]

theorem removeOp_absent (c : Collection) (k : JSVal) (hkey : isValidKey k = true)
    (hH : hasKey c k = false) :
    removeOp c k = ⟨c, [], some (.noSuchItem k)⟩ := by
  simp only [removeOp, resolveItem_validKey k .undefined hkey, hH, eq_self_iff_true,
    not_true, not_false_eq_true, Bool.false_eq_true, if_true, if_false]

theorem addOp_absent (c : Collection) (k v : JSVal) (hkey : isValidKey k = true)
    (hH : hasKey c k = false) :
    addOp c k v =
      ⟨touchState { c with items := aset c.items k v, size := c.size + 1 } .add k,
        [], none⟩ := by
  simp only [addOp, resolveItem_validKey k v hkey, hH, eq_self_iff_true,
    not_true, not_false_eq_true, Bool.false_eq_true, if_true, if_false]

theorem setOp_absent (c : Collection) (k v : JSVal) (hkey : isValidKey k = true)
    (hH : hasKey c k = false) :
    setOp c k v =
      ⟨touchState { c with items := aset c.items k v, size := c.size + 1 } .add k,
        [], none⟩ := by
  simp only [setOp, resolveItem_validKey k v hkey, hH, eq_self_iff_true,
    not_true, not_false_eq_true, Bool.false_eq_true, if_true, if_false]

theorem touchEntry_removeAdd (p0 p : Bool) (e : Option Action)
    (hnet : keyNetP p0 e p) (hp : p = true) :
    touchEntry .add (touchEntry .remove e) =
      some (if p0 then Action.update else Action.add) := by
  subst hp
  cases e with
  | none =>
    unfold keyNetP at hnet
    rw [← hnet]
    rfl
  | some a =>
    cases a with
    | add =>
      rw [hnet.2]
      rfl
    | update =>
      rw [hnet.2]
      rfl
    | remove => exact absurd hnet.1 (by simp)

theorem touchEntry_addRemove (p0 p : Bool) (e : Option Action)
    (hnet : keyNetP p0 e p) (hp : p = false) (hp0 : p0 = false) :
    touchEntry .remove (touchEntry .add e) = none := by
  subst hp
  cases e with
  | none => rfl
  | some a =>
    cases a with
    | add => exact absurd hnet.1 (by simp)
    | update => exact absurd hnet.1 (by simp)
    | remove => exact absurd hnet.2 (by simp [hp0])

theorem removeAdd_state (c : Collection) (k v : JSVal)
    (hkey : isValidKey k = true) (hH : hasKey c k = true) :
    (removeOp c k).error = none
  ∧ addOp (removeOp c k).state k v = setOp (removeOp c k).state k v
  ∧ (addOp (removeOp c k).state k v).error = none
  ∧ aget (addOp (removeOp c k).state k v).state.buffer k =
      touchEntry .add (touchEntry .remove (aget c.buffer k)) := by
  rw [removeOp_present c k hkey hH]
  have hk1 : hasKey
      (touchState { c with items := adel c.items k, size := c.size - 1 } .remove k)
      k = false := by
    unfold hasKey
    rw [touchState_items]
    show (aget (adel c.items k) k).isSome = false
    rw [aget_adel_self]
    rfl
  refine ⟨rfl, ?_, ?_, ?_⟩
  · rw [show (⟨touchState { c with items := adel c.items k, size := c.size - 1 }
        .remove k, [], (none : Option CollError)⟩ : OpResult).state =
        touchState { c with items := adel c.items k, size := c.size - 1 } .remove k
      from rfl, addOp_absent _ k v hkey hk1, setOp_absent _ k v hkey hk1]
  · rw [show (⟨touchState { c with items := adel c.items k, size := c.size - 1 }
        .remove k, [], (none : Option CollError)⟩ : OpResult).state =
        touchState { c with items := adel c.items k, size := c.size - 1 } .remove k
      from rfl, addOp_absent _ k v hkey hk1]
  · rw [show (⟨touchState { c with items := adel c.items k, size := c.size - 1 }
        .remove k, [], (none : Option CollError)⟩ : OpResult).state =
        touchState { c with items := adel c.items k, size := c.size - 1 } .remove k
      from rfl, addOp_absent _ k v hkey hk1]
    simp only [touchState_buffer, aget_touchBuffer_self]

/-- C1: starting from any flush-boundary state (empty pending log) and any
operation sequence, removing a key `k` and immediately re-adding it (via
`add` or `set`) inside the open scope records `k` in the pending log as
`update` when `k` was present at the boundary and as `add` when it was not;
at the next flush `k` therefore belongs to exactly that one event group
(so one `update` event and no `remove`/`add` event for `k`, or one `add`
event, respectively). -/
theorem spec_C1 (c0 : Collection) (ops : List Op) (k v : JSVal) (op2 : Op)
    (r1 r2 : OpResult)
    (hkey : isValidKey k = true) (hInv : Inv c0) (hb0 : c0.buffer = [])
    (hop2 : op2 = Op.add k v ∨ op2 = Op.set k v)
    (h1 : runOp (applyOps c0 ops) (Op.remove k) = r1) (he1 : r1.error = none)
    (h2 : runOp r1.state op2 = r2) :
    r2.error = none
  ∧ aget r2.state.buffer k =
      some (if hasKey c0 k then Action.update else Action.add)
  ∧ (aget (eventGroup r2.state
      (if hasKey c0 k then Action.update else Action.add)) k).isSome = true
  ∧ ∀ a, a ≠ (if hasKey c0 k then Action.update else Action.add) →
      aget (eventGroup r2.state a) k = none := by
  subst h2
  subst h1
  have hInvC : Inv (applyOps c0 ops) := Inv_applyOps c0 ops hInv
  have hnet : keyNet c0 (applyOps c0 ops) k :=
    keyNet_applyOps c0 c0 ops k hInv (keyNet_init c0 k hb0)
  have hH : hasKey (applyOps c0 ops) k = true := by
    cases hh : hasKey (applyOps c0 ops) k with
    | true => rfl
    | false =>
      rw [show runOp (applyOps c0 ops) (Op.remove k) = removeOp (applyOps c0 ops) k
          from rfl] at he1
      rw [removeOp_absent (applyOps c0 ops) k hkey hh] at he1
      exact absurd he1 (by simp)
  obtain ⟨hre, haddset, hae, habuf⟩ := removeAdd_state (applyOps c0 ops) k v hkey hH
  have hent : touchEntry .add (touchEntry .remove (aget (applyOps c0 ops).buffer k)) =
      some (if hasKey c0 k then Action.update else Action.add) :=
    touchEntry_removeAdd (hasKey c0 k) (hasKey (applyOps c0 ops) k) _ hnet hH
  have hInv2 : Inv (addOp (removeOp (applyOps c0 ops) k).state k v).state :=
    Inv_runOp (removeOp (applyOps c0 ops) k).state (Op.add k v)
      (Inv_runOp (applyOps c0 ops) (Op.remove k) hInvC)
  have hA : (addOp (removeOp (applyOps c0 ops) k).state k v).error = none
    ∧ aget (addOp (removeOp (applyOps c0 ops) k).state k v).state.buffer k =
        some (if hasKey c0 k then Action.update else Action.add)
    ∧ (aget (eventGroup (addOp (removeOp (applyOps c0 ops) k).state k v).state
        (if hasKey c0 k then Action.update else Action.add)) k).isSome = true
    ∧ ∀ a, a ≠ (if hasKey c0 k then Action.update else Action.add) →
        aget (eventGroup (addOp (removeOp (applyOps c0 ops) k).state k v).state a) k
          = none := by
    refine ⟨hae, habuf.trans hent, ?_, ?_⟩
    · rw [aget_eventGroup _ _ k hInv2.2.1, habuf, hent, if_pos rfl]
      rfl
    · intro a ha
      rw [aget_eventGroup _ a k hInv2.2.1, habuf, hent]
      exact if_neg (fun hx => ha (Option.some.inj hx).symm)
  rcases hop2 with hop | hop <;> subst hop
  · exact hA
  · show (setOp (removeOp (applyOps c0 ops) k).state k v).error = none
      ∧ aget (setOp (removeOp (applyOps c0 ops) k).state k v).state.buffer k =
          some (if hasKey c0 k then Action.update else Action.add)
      ∧ (aget (eventGroup (setOp (removeOp (applyOps c0 ops) k).state k v).state
          (if hasKey c0 k then Action.update else Action.add)) k).isSome = true
      ∧ ∀ a, a ≠ (if hasKey c0 k then Action.update else Action.add) →
          aget (eventGroup (setOp (removeOp (applyOps c0 ops) k).state k v).state a) k
            = none
    rw [← haddset]
    exact hA

theorem addOp_present (c : Collection) (k v : JSVal) (hkey : isValidKey k = true)
    (hH : hasKey c k = true) :
    addOp c k v = ⟨c, [], some (.duplicateItem k)⟩ := by
  simp only [addOp, resolveItem_validKey k v hkey, hH, eq_self_iff_true,
    not_true, not_false_eq_true, Bool.false_eq_true, if_true, if_false]

theorem addRemove_state (c : Collection) (k v : JSVal)
    (hkey : isValidKey k = true) (hH : hasKey c k = false) :
    (addOp c k v).error = none
  ∧ (removeOp (addOp c k v).state k).error = none
  ∧ aget (removeOp (addOp c k v).state k).state.buffer k =
      touchEntry .remove (touchEntry .add (aget c.buffer k)) := by
  rw [addOp_absent c k v hkey hH]
  have hk1 : hasKey
      (touchState { c with items := aset c.items k v, size := c.size + 1 } .add k)
      k = true := by
    unfold hasKey
    rw [touchState_items]
    show (aget (aset c.items k v) k).isSome = true
    rw [aget_aset_self]
    rfl
  refine ⟨rfl, ?_, ?_⟩
  · rw [show (⟨touchState { c with items := aset c.items k v, size := c.size + 1 }
        .add k, [], (none : Option CollError)⟩ : OpResult).state =
        touchState { c with items := aset c.items k v, size := c.size + 1 } .add k
      from rfl, removeOp_present _ k hkey hk1]
  · rw [show (⟨touchState { c with items := aset c.items k v, size := c.size + 1 }
        .add k, [], (none : Option CollError)⟩ : OpResult).state =
        touchState { c with items := aset c.items k v, size := c.size + 1 } .add k
      from rfl, removeOp_present _ k hkey hk1]
    simp only [touchState_buffer, aget_touchBuffer_self]

/-- Intended-semantics form of add-then-remove net-zero coalescing, over the
documented-intent item mapping (`// Object.create(null)`) in which every
item write creates an own entry: starting from any flush-boundary state in
which key `k` is absent, after any operation sequence, adding `k` and then
removing it inside the same open scope leaves no pending-log entry for `k`,
so the next flush emits no change event mentioning `k`. -/
theorem coalesce_addRemove_intended (c0 : Collection) (ops : List Op) (k v : JSVal)
    (r1 r2 : OpResult)
    (hkey : isValidKey k = true) (hInv : Inv c0) (hb0 : c0.buffer = [])
    (hP0 : hasKey c0 k = false)
    (h1 : runOp (applyOps c0 ops) (Op.add k v) = r1) (he1 : r1.error = none)
    (h2 : runOp r1.state (Op.remove k) = r2) :
    r2.error = none
  ∧ aget r2.state.buffer k = none
  ∧ ∀ a, aget (eventGroup r2.state a) k = none := by
  subst h2
  subst h1
  have hInvC : Inv (applyOps c0 ops) := Inv_applyOps c0 ops hInv
  have hnet : keyNet c0 (applyOps c0 ops) k :=
    keyNet_applyOps c0 c0 ops k hInv (keyNet_init c0 k hb0)
  have hH : hasKey (applyOps c0 ops) k = false := by
    cases hh : hasKey (applyOps c0 ops) k with
    | false => rfl
    | true =>
      rw [show runOp (applyOps c0 ops) (Op.add k v) = addOp (applyOps c0 ops) k v
          from rfl] at he1
      rw [addOp_present (applyOps c0 ops) k v hkey hh] at he1
      exact absurd he1 (by simp)
  obtain ⟨hae, hre, hrbuf⟩ := addRemove_state (applyOps c0 ops) k v hkey hH
  have hent : touchEntry .remove
      (touchEntry .add (aget (applyOps c0 ops).buffer k)) = none :=
    touchEntry_addRemove (hasKey c0 k) (hasKey (applyOps c0 ops) k) _ hnet hH hP0
  have hInv2 : Inv (removeOp (addOp (applyOps c0 ops) k v).state k).state :=
    Inv_runOp (addOp (applyOps c0 ops) k v).state (Op.remove k)
      (Inv_runOp (applyOps c0 ops) (Op.add k v) hInvC)
  refine ⟨hre, hrbuf.trans hent, ?_⟩
  intro a
  show aget (eventGroup (removeOp (addOp (applyOps c0 ops) k v).state k).state a) k
    = none
  rw [aget_eventGroup _ a k hInv2.2.1, hrbuf, hent]
  exact if_neg (by simp)

/-- Concrete flush-boundary state with key `"k"` present, inside one open
buffering scope. -/
def cBoundW : Collection :=
  { items := [(.str "k", .num 1)], size := 1, buffer := [], buffering := 1,
    scheduled := false, indexes := [], indexedItems := [] }

/-- Concrete flush-boundary state with no items, inside one open buffering
scope. -/
def cEmptyW : Collection :=
  { emptyCollection with buffering := 1 }

/-- Witness for C1 at a concrete state: removing then re-adding a key that
existed at the boundary leaves a single `update` log entry. -/
theorem spec_C1_witness :
    aget (runOp (runOp (applyOps cBoundW []) (Op.remove (.str "k"))).state
        (Op.add (.str "k") (.num 2))).state.buffer (.str "k") =
      some Action.update :=
  ((spec_C1 cBoundW [] (.str "k") (.num 2) (Op.add (.str "k") (.num 2))
      (runOp (applyOps cBoundW []) (Op.remove (.str "k")))
      (runOp (runOp (applyOps cBoundW []) (Op.remove (.str "k"))).state
        (Op.add (.str "k") (.num 2)))
      (by decide) ⟨by decide, by decide, by decide⟩ (by decide) (Or.inl rfl) rfl
      (by decide) rfl).2.1).trans (by decide)

/-- The intended net-zero coalescing at a concrete state: adding then
removing a key absent at the boundary leaves no log entry for it. -/
theorem coalesce_addRemove_intended_example :
    aget (runOp (runOp (applyOps cEmptyW []) (Op.add (.str "x") (.num 1))).state
        (Op.remove (.str "x"))).state.buffer (.str "x") = none :=
  (coalesce_addRemove_intended cEmptyW [] (.str "x") (.num 1)
      (runOp (applyOps cEmptyW []) (Op.add (.str "x") (.num 1)))
      (runOp (runOp (applyOps cEmptyW []) (Op.add (.str "x") (.num 1))).state
        (Op.remove (.str "x")))
      (by decide) ⟨by decide, by decide, by decide⟩ (by decide) (by decide) rfl
      (by decide) rfl).2.1

/-- C6 counterexample: a concrete store with an attached index on which a
successful `add` mutation makes no call into the index (in particular no
per-mutation notification), refuting the claim that every mutation delivers
a notification to every attached index. -/
theorem spec_C6_cex :
    (aget ((createIndex emptyCollection "byId" ⟨.undefined⟩).state.indexes)
      "byId").isSome = true
  ∧ (runOp (createIndex emptyCollection "byId" ⟨.undefined⟩).state
      (Op.add (.str "a") (.num 1))).error = none
  ∧ (runOp (createIndex emptyCollection "byId" ⟨.undefined⟩).state
      (Op.add (.str "a") (.num 1))).indexCalls = [] := by
  decide

/-- C6 (amended): mutations make no direct calls into attached indexes at
all; the store's only direct store→index invocations are the attach hook
during `createIndex` and the detach hook during `deleteIndex` — indexes can
observe changes only through the store's coalesced batched events. -/
theorem spec_C6 :
    (∀ c op, (runOp c op).indexCalls = [])
  ∧ (∀ c name index, (createIndex c name index).error = none →
      (createIndex c name index).indexCalls = [IndexCall.attach name])
  ∧ (∀ c name, (deleteIndex c name).error = none →
      (deleteIndex c name).indexCalls = [IndexCall.detach name]) := by
  refine ⟨?_, ?_, ?_⟩
  · intro c op
    cases op with
    | add k v =>
      show (addOp c k v).indexCalls = []
      unfold addOp
      cases resolveItem k v with
      | error e => rfl
      | ok kv =>
        obtain ⟨key, value⟩ := kv
        by_cases hh : hasKey c key <;> simp [hh]
    | set k v =>
      show (setOp c k v).indexCalls = []
      unfold setOp
      cases resolveItem k v with
      | error e => rfl
      | ok kv =>
        obtain ⟨key, value⟩ := kv
        by_cases hh : hasKey c key <;> simp [hh]
    | update k v =>
      show (updateOp c k v).indexCalls = []
      unfold updateOp
      cases resolveItem k v with
      | error e => rfl
      | ok kv =>
        obtain ⟨key, value⟩ := kv
        by_cases hh : hasKey c key <;> simp [hh]
    | remove k =>
      show (removeOp c k).indexCalls = []
      unfold removeOp
      cases resolveItem k with
      | error e => rfl
      | ok kv =>
        obtain ⟨key, value⟩ := kv
        by_cases hh : hasKey c key <;> simp [hh]
    | unset k =>
      show (unsetOp c k).indexCalls = []
      unfold unsetOp
      cases resolveItem k with
      | error e => rfl
      | ok kv =>
        obtain ⟨key, value⟩ := kv
        by_cases hh : hasKey c key <;> simp [hh]
    | touch k =>
      show (touchOp c k).indexCalls = []
      unfold touchOp
      cases resolveItem k with
      | error e => rfl
      | ok kv =>
        obtain ⟨key, value⟩ := kv
        by_cases hh : hasKey c key
        · cases hval : (aget c.items key).getD .undefined <;> simp [hh, hval]
        · simp [hh]
    | clear => rfl
  · intro c name index h
    unfold createIndex at h ⊢
    by_cases hh : (aget c.indexes name).isSome
    · rw [if_pos hh] at h
      exact absurd h (by simp)
    · rw [if_neg hh]
  · intro c name h
    unfold deleteIndex at h ⊢
    by_cases hh : (aget c.indexes name).isSome
    · rw [if_neg (not_not_intro hh)]
    · rw [if_pos hh] at h
      exact absurd h (by simp)

/-- Witness for C6 (amended) at concrete inputs: attach and detach produce
exactly the corresponding hook call, and a mutation produces none. -/
theorem spec_C6_witness :
    (createIndex emptyCollection "byId" ⟨.undefined⟩).indexCalls =
      [IndexCall.attach "byId"]
  ∧ (deleteIndex (createIndex emptyCollection "byId" ⟨.undefined⟩).state
      "byId").indexCalls = [IndexCall.detach "byId"]
  ∧ (runOp emptyCollection (Op.add (.str "a") (.num 1))).indexCalls = [] :=
  ⟨spec_C6.2.1 emptyCollection "byId" ⟨.undefined⟩ (by decide),
   spec_C6.2.2 (createIndex emptyCollection "byId" ⟨.undefined⟩).state "byId"
     (by decide),
   spec_C6.1 emptyCollection (Op.add (.str "a") (.num 1))⟩

/-- Modelled from the spec: the spec's key-shape predicate, "keys must be
either a string or an integer" (invariant I5). -/
def specKeyStringOrInteger : JSVal → Bool
  | .str _ => true
  | .num q => q.den = 1
  | _ => false

/-- C7 counterexample: the non-integer number key `3/2` is neither a string
nor an integer, yet `set` with this key succeeds and changes the state
instead of failing with `InvalidKey`. -/
theorem spec_C7_cex :
    specKeyStringOrInteger (.num (mkRat 3 2)) = false
  ∧ (setOp emptyCollection (.num (mkRat 3 2)) (.num 1)).error = none
  ∧ (setOp emptyCollection (.num (mkRat 3 2)) (.num 1)).state ≠
      emptyCollection := by
  decide

theorem resolveItem_invalid_pair (k v : JSVal) (hv : v ≠ .undefined)
    (hk : isValidKey k = false) :
    resolveItem k v = .error (.invalidKey k) := by
  unfold resolveItem
  simp [hv, hk]

theorem resolveItem_invalid_single (k : JSVal) (hk : isValidKey k = false)
    (hg : isValidKey (getKey k) = false) :
    resolveItem k .undefined = .error (.invalidKey (getKey k)) := by
  unfold resolveItem
  simp [hk, hg]

/-- C7 (amended): key validation accepts exactly strings and numbers
(integral or not): every string or number passes, and every mutation whose
resolved key is neither a string nor a number fails with `InvalidKey` and
leaves the state unchanged. -/
theorem spec_C7 :
    (∀ s, isValidKey (.str s) = true)
  ∧ (∀ q, isValidKey (.num q) = true)
  ∧ (∀ c k v, v ≠ .undefined → isValidKey k = false →
      addOp c k v = ⟨c, [], some (.invalidKey k)⟩
      ∧ setOp c k v = ⟨c, [], some (.invalidKey k)⟩
      ∧ updateOp c k v = ⟨c, [], some (.invalidKey k)⟩)
  ∧ (∀ c k, isValidKey k = false → isValidKey (getKey k) = false →
      addOp c k = ⟨c, [], some (.invalidKey (getKey k))⟩
      ∧ setOp c k = ⟨c, [], some (.invalidKey (getKey k))⟩
      ∧ updateOp c k = ⟨c, [], some (.invalidKey (getKey k))⟩
      ∧ removeOp c k = ⟨c, [], some (.invalidKey (getKey k))⟩
      ∧ unsetOp c k = ⟨c, [], some (.invalidKey (getKey k))⟩
      ∧ touchOp c k = ⟨c, [], some (.invalidKey (getKey k))⟩) := by
  refine ⟨fun s => rfl, fun q => rfl, ?_, ?_⟩
  · intro c k v hv hk
    refine ⟨?_, ?_, ?_⟩
    · unfold addOp
      rw [resolveItem_invalid_pair k v hv hk]
    · unfold setOp
      rw [resolveItem_invalid_pair k v hv hk]
    · unfold updateOp
      rw [resolveItem_invalid_pair k v hv hk]
  · intro c k hk hg
    refine ⟨?_, ?_, ?_, ?_, ?_, ?_⟩
    · unfold addOp
      rw [resolveItem_invalid_single k hk hg]
    · unfold setOp
      rw [resolveItem_invalid_single k hk hg]
    · unfold updateOp
      rw [resolveItem_invalid_single k hk hg]
    · unfold removeOp
      rw [resolveItem_invalid_single k hk hg]
    · unfold unsetOp
      rw [resolveItem_invalid_single k hk hg]
    · unfold touchOp
      rw [resolveItem_invalid_single k hk hg]

/-- Witness for C7 (amended) at concrete inputs: a boolean key (resolved via
`getKey` to `undefined`) and a null key both fail with `InvalidKey` leaving
the state unchanged. -/
theorem spec_C7_witness :
    removeOp emptyCollection (.bool true) =
      ⟨emptyCollection, [], some (.invalidKey (getKey (.bool true)))⟩
  ∧ addOp emptyCollection .null (.num 1) =
      ⟨emptyCollection, [], some (.invalidKey .null)⟩ :=
  ⟨(spec_C7.2.2.2 emptyCollection (.bool true) (by decide) (by decide)).2.2.2.1,
   (spec_C7.2.2.1 emptyCollection .null (.num 1) (by decide) (by decide)).1⟩

/-- C8: one-argument `get` on an absent key fails with `NoSuchItem`, while
two-argument `get` returns the supplied default (whatever it is, including
`null` or `undefined`); on a present key both return the stored value. -/
theorem spec_C8 (c : Collection) (k d : JSVal) :
    (aget c.items k = none →
      getOp1 c k = .error (.noSuchItem k) ∧ getOp2 c k d = d)
  ∧ (∀ v, aget c.items k = some v →
      getOp1 c k = .ok v ∧ getOp2 c k d = v) := by
  constructor
  · intro h
    unfold getOp1 getOp2 hasKey
    rw [h]
    simp
  · intro v h
    unfold getOp1 getOp2 hasKey
    rw [h]
    simp

/-- Witness for C8 at concrete inputs: `get('missing')` fails with
`NoSuchItem`, `get('missing', null)` returns `null`, and a present key
returns its stored value. -/
theorem spec_C8_witness :
    (getOp1 emptyCollection (.str "missing") =
        .error (.noSuchItem (.str "missing"))
      ∧ getOp2 emptyCollection (.str "missing") .null = .null)
  ∧ (getOp1 cBoundW (.str "k") = .ok (.num 1)
      ∧ getOp2 cBoundW (.str "k") .null = .num 1) :=
  ⟨(spec_C8 emptyCollection (.str "missing") .null).1 (by decide),
   (spec_C8 cBoundW (.str "k") .null).2 (.num 1) (by decide)⟩

/-- Intended-semantics form of the size invariant, over the
documented-intent item mapping in which every item write creates an own
entry: after any sequence of mutation operations starting from the empty
collection, `size` equals the number of keys in the item mapping (whose
keys are pairwise distinct). -/
theorem sizeInv_intended (ops : List Op) :
    (applyOps emptyCollection ops).size =
      ((applyOps emptyCollection ops).items.length : Int)
  ∧ (keysOf (applyOps emptyCollection ops).items).Nodup := by
  have h := Inv_applyOps emptyCollection ops Inv_empty
  exact ⟨h.2.2, h.1⟩

theorem eventGroup_eq_nil (c : Collection) (a : Action)
    (h : ∀ kv ∈ c.buffer, kv.2 ≠ a) : eventGroup c a = [] := by
  unfold eventGroup
  rw [List.filterMap_eq_nil_iff]
  intro kv hkv
  simp [h kv hkv]

/-- Intended-semantics behaviour of `clear()` on states whose `size`
matches their key count: it empties the item mapping, brings `size` to 0,
and pushes a `remove` through the same coalescing pending log for each
previously-present key (an entry added earlier in the same open scope is
cancelled, any other entry becomes `remove`; keys outside the mapping are
untouched); a subsequent flush of the resulting state emits a single
`remove` event covering the remaining keys followed by `finish`. -/
theorem clearOp_intended (c : Collection) (hInv : Inv c) :
    (clearOp c).error = none
  ∧ (clearOp c).indexCalls = []
  ∧ (clearOp c).state.items = []
  ∧ (clearOp c).state.size = 0
  ∧ (∀ k, aget (clearOp c).state.buffer k =
      if hasKey c k
      then (if aget c.buffer k = some Action.add then none else some Action.remove)
      else aget c.buffer k)
  ∧ ((∀ k a, aget c.buffer k = some a → hasKey c k = true) →
      c.buffering = 1 → (clearOp c).state.buffer ≠ [] →
      flushRun false (clearOp c).state =
        ⟨true, { (clearOp c).state with buffering := 0, buffer := [] },
          [Event.change .remove (eventGroup (clearOp c).state .remove),
           Event.finish], none⟩) := by
  obtain ⟨h1, h2, h3⟩ := hInv
  have hchar : ∀ k, aget (clearLoop c c.items).buffer k =
      if hasKey c k
      then (if aget c.buffer k = some Action.add then none else some Action.remove)
      else aget c.buffer k := by
    intro k
    rw [clearLoop_buffer, foldl_touchRemove_aget c.items c.buffer k h1]
    by_cases hmem : k ∈ keysOf c.items
    · rw [if_pos hmem, if_pos (show hasKey c k = true from
        (aget_isSome_iff c.items k).mpr hmem)]
    · rw [if_neg hmem, if_neg (show ¬ hasKey c k = true from by
        unfold hasKey
        rw [aget_isSome_iff]
        exact hmem)]
  refine ⟨rfl, rfl, clearLoop_items c.items c rfl h1, ?_, hchar, ?_⟩
  · show (clearLoop c c.items).size = 0
    rw [clearLoop_size c.items c rfl h1, h3]
    simp
  · intro hball hb1 hne
    have hb1' : (clearLoop c c.items).buffering = 1 := by
      rw [clearLoop_buffering c.items c (by rw [hb1]; exact one_ne_zero)]
      exact hb1
    have hndb : (keysOf (clearLoop c c.items).buffer).Nodup := by
      rw [clearLoop_buffer]
      exact foldl_touchRemove_nodup c.items c.buffer h2
    have hent : ∀ kv ∈ (clearLoop c c.items).buffer, kv.2 = Action.remove := by
      intro kv hkv
      have hag := aget_of_mem_nodup _ kv hkv hndb
      rw [hchar kv.1] at hag
      by_cases hK : hasKey c kv.1
      · rw [if_pos hK] at hag
        by_cases hadd : aget c.buffer kv.1 = some Action.add
        · rw [if_pos hadd] at hag
          cases hag
        · rw [if_neg hadd] at hag
          exact (Option.some.inj hag).symm
      · rw [if_neg hK] at hag
        exact absurd (hball kv.1 kv.2 hag) hK
    have hAdd : eventGroup (clearLoop c c.items) .add = [] :=
      eventGroup_eq_nil _ _ (fun kv hkv => by rw [hent kv hkv]; simp)
    have hUpd : eventGroup (clearLoop c c.items) .update = [] :=
      eventGroup_eq_nil _ _ (fun kv hkv => by rw [hent kv hkv]; simp)
    have hRem : (eventGroup (clearLoop c c.items) .remove).isEmpty = false := by
      cases hb : (clearLoop c c.items).buffer with
      | nil => exact absurd hb hne
      | cons p t =>
        have hp : p.2 = Action.remove :=
          hent p (by rw [hb]; exact List.mem_cons_self _ _)
        unfold eventGroup
        rw [hb, List.filterMap_cons]
        simp [hp]
    show flushRun false (clearLoop c c.items) =
      ⟨true, { clearLoop c c.items with buffering := 0, buffer := [] },
        [Event.change .remove (eventGroup (clearLoop c c.items) .remove),
         Event.finish], none⟩
    rw [flushRun_one (clearLoop c c.items) hb1' hne, hAdd, hUpd]
    simp only [List.isEmpty_nil, if_true, hRem, Bool.false_eq_true, if_false,
      List.nil_append, List.singleton_append]

/-- The intended `clear()` behaviour at a concrete state: clearing a
one-item store inside an open scope empties it, logs the key as `remove`,
and the subsequent flush emits one `remove` event then `finish`. -/
theorem clearOp_intended_example :
    (clearOp cBoundW).state.items = []
  ∧ (clearOp cBoundW).state.size = 0
  ∧ aget (clearOp cBoundW).state.buffer (.str "k") = some Action.remove
  ∧ flushRun false (clearOp cBoundW).state =
      ⟨true, { (clearOp cBoundW).state with buffering := 0, buffer := [] },
        [Event.change .remove (eventGroup (clearOp cBoundW).state .remove),
         Event.finish], none⟩ :=
  have h := clearOp_intended cBoundW ⟨by decide, by decide, by decide⟩
  ⟨h.2.2.1, h.2.2.2.1, (h.2.2.2.2.1 (.str "k")).trans (by decide),
   h.2.2.2.2.2 (fun k a hk => Option.noConfusion hk) (by decide) (by decide)⟩

/-- C2: the code violates net-zero coalescing at the key `'__proto__'`: on
the `{}`-prototyped `_items` of the source, `add('__proto__', 1)` inside an
open scope succeeds (the `hasOwnProperty` guard sees no own key) and logs
an `add` without creating any own entry, so the subsequent
`remove('__proto__')` fails with `NoSuchItem` and changes nothing, the
pending `add` entry survives, and the flush's `add` event mentions the key
instead of nothing being emitted for it. -/
theorem spec_C2 :
    (addOpProto cEmptyW (.str "__proto__") (.num 1)).error = none
  ∧ (addOpProto cEmptyW (.str "__proto__") (.num 1)).state.items = []
  ∧ aget (addOpProto cEmptyW (.str "__proto__") (.num 1)).state.buffer
      (.str "__proto__") = some Action.add
  ∧ removeOp (addOpProto cEmptyW (.str "__proto__") (.num 1)).state
      (.str "__proto__") =
      ⟨(addOpProto cEmptyW (.str "__proto__") (.num 1)).state, [],
        some (.noSuchItem (.str "__proto__"))⟩
  ∧ (aget (eventGroup (addOpProto cEmptyW (.str "__proto__") (.num 1)).state
      .add) (.str "__proto__")).isSome = true := by
  decide

/-- C9: the code violates the size invariant at the key `'__proto__'`: on
the `{}`-prototyped `_items` of the source (whose own trailing comment
documents the intended `Object.create(null)`), `add('__proto__', 5)` — and
likewise `set` — increments `_size` to 1 while the inherited accessor
swallows the write, leaving zero keys in the item mapping. -/
theorem spec_C9 :
    (addOpProto emptyCollection (.str "__proto__") (.num 5)).error = none
  ∧ (addOpProto emptyCollection (.str "__proto__") (.num 5)).state.size = 1
  ∧ (addOpProto emptyCollection (.str "__proto__") (.num 5)).state.items = []
  ∧ (addOpProto emptyCollection (.str "__proto__") (.num 5)).state.size ≠
      (((addOpProto emptyCollection
          (.str "__proto__") (.num 5)).state.items.length : Int))
  ∧ (setOpProto emptyCollection (.str "__proto__") (.num 5)).state.size = 1
  ∧ (setOpProto emptyCollection (.str "__proto__") (.num 5)).state.items = [] := by
  decide

/-- C10: the code violates "clear leaves size 0" on a reachable store:
after `add('__proto__', 5)` (size inflated to 1 with no own key), `clear()`
iterates the zero own keys of the item mapping and returns with the item
mapping empty but `size` still 1, not 0. -/
theorem spec_C10 :
    clearOp (addOpProto emptyCollection (.str "__proto__") (.num 5)).state =
      ⟨(addOpProto emptyCollection (.str "__proto__") (.num 5)).state, [], none⟩
  ∧ (clearOp (addOpProto emptyCollection
      (.str "__proto__") (.num 5)).state).state.items = []
  ∧ (clearOp (addOpProto emptyCollection
      (.str "__proto__") (.num 5)).state).state.size = 1
  ∧ (clearOp (addOpProto emptyCollection
      (.str "__proto__") (.num 5)).state).state.size ≠ 0 := by
  decide

end XoColl
